import Mathlib

/-!
Verification development for the bioswrite SPI-flash tool
(src/bioswrite-main.c) against its design specification.

The CLI file is embedded directly.  The spiflash driver functions that
the CLI calls (spiflash_size, spiflash_read, spiflash_write_enable,
spiflash_program_buffer, declared in bioswrite.h) are not part of the
provided source tree; where a property depends on them they are
modelled from the specification, with a doc comment saying so.

All machine integers in the C source are `unsigned` (32 bits wide on
the platforms this tool targets); arithmetic on them is embedded as
natural-number arithmetic reduced modulo 2^32.
-/

/-- Width of the C `unsigned` type used throughout the source. -/
def U32 : Nat := 2 ^ 32

/-- 32-bit wrapping addition, the semantics of `offset + length` in C. -/
def add32 (a b : Nat) : Nat := (a + b) % U32

/-- 32-bit wrapping subtraction, the semantics of `flash_size - offset` in C. -/
def sub32 (a b : Nat) : Nat := (a + (U32 - b % U32)) % U32

/-- Observable steps of `read_from_spi` (src/bioswrite-main.c lines 49-107):
the bulk flash read issued to the hardware, the opening of the output
destination and the writing of the buffer to it. -/
inductive REv where
  | hwRead (off len : Nat)
  | openOutput
  | writeOutput
deriving DecidableEq, Repr

/-- Effective read length: `if (length == 0) length = flash_size - offset;`
(src/bioswrite-main.c lines 59-60), with C wrapping subtraction. -/
def readEffLen (flash_size offset length : Nat) : Nat :=
  if length = 0 then sub32 flash_size offset else length

/-- Embedding of `read_from_spi` (src/bioswrite-main.c lines 49-107).
Parameters: `flash_size` is the value returned by `spiflash_size`;
`readOk` tells whether the `spiflash_read` call succeeds; `openOk`
tells whether the output destination can be opened.  Returns the
success flag together with the ordered list of observable steps.
The bounds check at line 62 compares the 32-bit wrapped sum
`offset + length` against `flash_size`, exactly as the C does. -/
def read_from_spi (flash_size offset length : Nat) (readOk openOk : Bool) :
    Bool × List REv :=
  if add32 offset (readEffLen flash_size offset length) > flash_size then
    (false, [])
  else if readOk = false then
    (false, [REv.hwRead offset (readEffLen flash_size offset length)])
  else if openOk = false then
    (false, [REv.hwRead offset (readEffLen flash_size offset length),
             REv.openOutput])
  else
    (true, [REv.hwRead offset (readEffLen flash_size offset length),
            REv.openOutput, REv.writeOutput])

/-- Observable steps of `write_to_spi` (src/bioswrite-main.c lines 110-178):
the bounds comparison at line 149, the `spiflash_write_enable` call at
line 159 and the `spiflash_program_buffer` call at line 168. -/
inductive WStep where
  | boundsCheck
  | writeEnableCmd
  | programBuffer (off len : Nat)
deriving DecidableEq, Repr

/-- Effective write length: the explicit `length` when nonzero, otherwise
the byte count obtained from the input file (src/bioswrite-main.c
lines 136-139). -/
def writeEffLen (length read_len : Nat) : Nat :=
  if length = 0 then read_len else length

/-- Embedding of `write_to_spi` (src/bioswrite-main.c lines 110-178).
Parameters: `read_len` is the number of bytes `fread` obtained from the
input file; `openOk` tells whether the input file could be opened;
`weOk` and `progOk` tell whether `spiflash_write_enable` and
`spiflash_program_buffer` succeed.  Returns the success flag together
with the ordered list of observable steps.  Mirrors the source order:
open input, read it, the zero-length default (lines 136-139), the
length-mismatch check (lines 140-147, no padding), the wrapped bounds
check (line 149), write-enable (line 159), program (line 168). -/
def write_to_spi (flash_size offset length read_len : Nat)
    (openOk weOk progOk : Bool) : Bool × List WStep :=
  if openOk = false then (false, [])
  else if length ≠ 0 ∧ read_len ≠ length then (false, [])
  else if add32 offset (writeEffLen length read_len) > flash_size then
    (false, [WStep.boundsCheck])
  else if weOk = false then
    (false, [WStep.boundsCheck, WStep.writeEnableCmd])
  else if progOk = false then
    (false, [WStep.boundsCheck, WStep.writeEnableCmd,
             WStep.programBuffer offset (writeEffLen length read_len)])
  else
    (true, [WStep.boundsCheck, WStep.writeEnableCmd,
            WStep.programBuffer offset (writeEffLen length read_len)])

/-- Arithmetic fact: a sum below the wrap point is unchanged by `add32`. -/
lemma add32_of_lt {a b : Nat} (h : a + b < U32) : add32 a b = a + b := by
  unfold add32
  exact Nat.mod_eq_of_lt h

/-- Arithmetic fact: for in-range operands `sub32` is plain subtraction. -/
lemma sub32_of_le {a b : Nat} (hba : b ≤ a) (ha : a < U32) :
    sub32 a b = a - b := by
  unfold sub32
  have hb : b < U32 := Nat.lt_of_le_of_lt hba ha
  rw [Nat.mod_eq_of_lt hb]
  have h1 : a + (U32 - b) = (a - b) + U32 := by omega
  rw [h1, Nat.add_mod_right, Nat.mod_eq_of_lt (by omega)]

/-- Evaluation: a read whose wrapped bounds check fails does nothing. -/
lemma read_from_spi_oob {fs offset length : Nat} {rOk oOk : Bool}
    (h : add32 offset (readEffLen fs offset length) > fs) :
    read_from_spi fs offset length rOk oOk = (false, []) := by
  unfold read_from_spi
  rw [if_pos h]

/-- Evaluation: a read whose bounds check passes and whose hardware read
and output opening succeed performs all three steps. -/
lemma read_from_spi_ok {fs offset length : Nat}
    (h : ¬ add32 offset (readEffLen fs offset length) > fs) :
    read_from_spi fs offset length true true =
      (true, [REv.hwRead offset (readEffLen fs offset length),
              REv.openOutput, REv.writeOutput]) := by
  unfold read_from_spi
  rw [if_neg h]
  simp

/-- Evaluation: a read whose bounds check passes but whose hardware read
fails stops right after the hardware read. -/
lemma read_from_spi_hwfail {fs offset length : Nat} {oOk : Bool}
    (h : ¬ add32 offset (readEffLen fs offset length) > fs) :
    read_from_spi fs offset length false oOk =
      (false, [REv.hwRead offset (readEffLen fs offset length)]) := by
  unfold read_from_spi
  rw [if_neg h]
  simp

/-- Evaluation: a write whose length check passes but whose wrapped
bounds check fails stops at the bounds comparison. -/
lemma write_to_spi_oob {fs offset length read_len : Nat} {weOk progOk : Bool}
    (h1 : ¬ (length ≠ 0 ∧ read_len ≠ length))
    (h2 : add32 offset (writeEffLen length read_len) > fs) :
    write_to_spi fs offset length read_len true weOk progOk =
      (false, [WStep.boundsCheck]) := by
  unfold write_to_spi
  rw [if_neg (by simp), if_neg h1, if_pos h2]

/-- C1 counterexample: the claim states that whenever `offset + length`
overflows the 32-bit unsigned range the read fails with zero hardware
operations, but the check at src/bioswrite-main.c line 62 is computed
with wrapping C arithmetic.  With `flash_size = 2^24`,
`offset = 2^24`, `length = 2^32 - 1` the true sum both overflows 32
bits and exceeds the flash size, yet the wrapped sum is `2^24 - 1`, the
check passes, and the read proceeds to issue the hardware read and
report success. -/
theorem bounds_overflow_wraps :
    2 ^ 32 ≤ 2 ^ 24 + (2 ^ 32 - 1) ∧
    2 ^ 24 + (2 ^ 32 - 1) > 2 ^ 24 ∧
    (read_from_spi (2 ^ 24) (2 ^ 24) (2 ^ 32 - 1) true true).1 = true ∧
    (read_from_spi (2 ^ 24) (2 ^ 24) (2 ^ 32 - 1) true true).2 ≠ [] := by
  refine ⟨by norm_num, by norm_num, ?_, ?_⟩ <;> decide

/-- C1 amended: when the true sum `offset + length` does not overflow
32 bits (so the C addition computes it exactly) and exceeds the flash
size, both `read_from_spi` and `write_to_spi` fail before issuing any
hardware operation: the read trace is empty and the write trace holds
only the failed bounds comparison (no write-enable, no program).  When
the sum does overflow, the code compares the wrapped value instead and
may let the request through (see the counterexample). -/
theorem bounds_check_no_overflow (fs offset length read_len : Nat)
    (rOk oOk weOk progOk : Bool)
    (h1 : 0 < length) (h2 : offset + length < 2 ^ 32)
    (h3 : fs < offset + length) (h4 : read_len = length) :
    read_from_spi fs offset length rOk oOk = (false, []) ∧
    write_to_spi fs offset length read_len true weOk progOk =
      (false, [WStep.boundsCheck]) := by
  have hlen : length ≠ 0 := Nat.pos_iff_ne_zero.mp h1
  have hr : readEffLen fs offset length = length := if_neg hlen
  have hw : writeEffLen length read_len = length := if_neg hlen
  have hadd : add32 offset length = offset + length := add32_of_lt h2
  constructor
  · exact read_from_spi_oob (by rw [hr, hadd]; exact h3)
  · exact write_to_spi_oob (by simp [h4]) (by rw [hw, hadd]; exact h3)

/-- C1 amended witness at a concrete in-range instance. -/
theorem bounds_check_no_overflow_witness :
    0 < 10 ∧ 10 + 10 < 2 ^ 32 ∧ 6 < 10 + 10 ∧ 10 = 10 ∧
    (read_from_spi 6 10 10 true true = (false, []) ∧
     write_to_spi 6 10 10 10 true true true = (false, [WStep.boundsCheck])) :=
  ⟨by norm_num, by norm_num, by norm_num, rfl,
    bounds_check_no_overflow 6 10 10 10 true true true true
      (by norm_num) (by norm_num) (by norm_num) rfl⟩

/-- C8: with `length = 0` the read defaults its length to
`flash_size - offset` (src/bioswrite-main.c lines 59-60) and the write
defaults its length to the number of bytes actually read from the
input file (lines 136-139): the hardware read carries length
`fs - offset` and the program step carries length `read_len`. -/
theorem default_length (fs offset read_len : Nat)
    (h1 : offset ≤ fs) (h2 : fs < 2 ^ 32) (h3 : add32 offset read_len ≤ fs) :
    read_from_spi fs offset 0 true true =
      (true, [REv.hwRead offset (fs - offset), REv.openOutput,
              REv.writeOutput]) ∧
    write_to_spi fs offset 0 read_len true true true =
      (true, [WStep.boundsCheck, WStep.writeEnableCmd,
              WStep.programBuffer offset read_len]) := by
  have hU : fs < U32 := h2
  have hr : readEffLen fs offset 0 = fs - offset := by
    unfold readEffLen
    rw [if_pos rfl]
    exact sub32_of_le h1 hU
  have hadd : add32 offset (fs - offset) = fs := by
    unfold add32
    have h5 : offset + (fs - offset) = fs := by omega
    rw [h5]
    exact Nat.mod_eq_of_lt hU
  constructor
  · have := @read_from_spi_ok fs offset 0 (by rw [hr, hadd]; omega)
    rw [this, hr]
  · unfold write_to_spi writeEffLen
    rw [if_neg (by simp), if_neg (by simp), if_pos rfl,
        if_neg (by omega), if_neg (by simp), if_neg (by simp)]

/-- C8 witness at a concrete instance: flash of 16 bytes, offset 4,
file of 8 bytes. -/
theorem default_length_witness :
    4 ≤ 16 ∧ 16 < 2 ^ 32 ∧ add32 4 8 ≤ 16 ∧
    (read_from_spi 16 4 0 true true =
       (true, [REv.hwRead 4 12, REv.openOutput, REv.writeOutput]) ∧
     write_to_spi 16 4 0 8 true true true =
       (true, [WStep.boundsCheck, WStep.writeEnableCmd,
               WStep.programBuffer 4 8])) :=
  ⟨by norm_num, by norm_num, by decide,
    default_length 16 4 8 (by norm_num) (by norm_num) (by decide)⟩

/-- C9: with an explicit nonzero length, if the byte count obtained
from the input file differs from it, `write_to_spi` fails with an empty
step trace (src/bioswrite-main.c lines 140-147): the bounds comparison
is never reached, no write-enable and no flash operation is issued, and
the short input is not padded. -/
theorem length_mismatch_fails (fs offset length read_len : Nat)
    (weOk progOk : Bool) (h1 : length ≠ 0) (h2 : read_len ≠ length) :
    write_to_spi fs offset length read_len true weOk progOk = (false, []) := by
  unfold write_to_spi
  rw [if_neg (by simp), if_pos ⟨h1, h2⟩]

/-- C9 witness: asking for 4 bytes while the file provides only 2. -/
theorem length_mismatch_fails_witness :
    (4 : Nat) ≠ 0 ∧ (2 : Nat) ≠ 4 ∧
    write_to_spi 16 0 4 2 true true true = (false, []) :=
  ⟨by norm_num, by norm_num,
    length_mismatch_fails 16 0 4 2 true true (by norm_num) (by norm_num)⟩

/-- C10: when the flash read itself fails, `read_from_spi` returns
failure and its step trace stops at the hardware read
(src/bioswrite-main.c lines 81-88): the output destination is opened
only after the flash read has succeeded, so no open or write of the
output occurs. -/
theorem read_failure_no_output (fs offset length : Nat) (openOk : Bool)
    (h : add32 offset (readEffLen fs offset length) ≤ fs) :
    read_from_spi fs offset length false openOk =
      (false, [REv.hwRead offset (readEffLen fs offset length)]) ∧
    REv.openOutput ∉ (read_from_spi fs offset length false openOk).2 := by
  have heq := @read_from_spi_hwfail fs offset length openOk (by omega)
  refine ⟨heq, ?_⟩
  rw [heq]
  simp

/-- C10 witness: failing read of 8 bytes at offset 0 of a 16-byte flash. -/
theorem read_failure_no_output_witness :
    add32 0 (readEffLen 16 0 8) ≤ 16 ∧
    (read_from_spi 16 0 8 false true =
       (false, [REv.hwRead 0 (readEffLen 16 0 8)]) ∧
     REv.openOutput ∉ (read_from_spi 16 0 8 false true).2) :=
  ⟨by decide, read_failure_no_output 16 0 8 true (by decide)⟩

/-!
The spiflash driver core.  The CLI source calls `spiflash_write_enable`
and `spiflash_program_buffer` (src/bioswrite-main.c lines 159, 168) but
the body of the driver is not part of the provided source tree, so the
program planner and transfer engine below are modelled from the
specification (sections 4.3, 4.4, 4.6).  A flash image is represented
page-chunked: a page is a list of byte values, a sector is a list of
pages, an image is a list of sectors; a program command can only clear
bits (bitwise AND), an erase sets every bit of a sector (bytes 0xFF).
-/

/-- One program-granularity unit of flash data: a list of byte values. -/
abbrev Page := List Nat

/-- SPI commands observable at the hardware boundary: write-enable,
sector erase, and page program (sector index, page index within the
sector, payload). -/
inductive SpiOp where
  | writeEnable
  | eraseSector (s : Nat)
  | programPage (s i : Nat) (data : Page)
deriving DecidableEq

/-- Erasure resets every byte of a page to 0xFF (all bits set). -/
def erasePage (p : Page) : Page := p.map fun _ => 255

/-- Programming can only clear bits: the resulting byte is the bitwise
AND of the existing byte and the payload byte. -/
def progPage (p data : Page) : Page := List.zipWith (fun a b => a &&& b) p data

/-- Modelled from the spec (section 4.4): a page is writable without an
erase when every bit that must flip does so 1 to 0, i.e.
`current AND desired == desired` bytewise. -/
def pageWritable (c d : Page) : Bool :=
  (List.zip c d).all fun p => p.1 &&& p.2 == p.2

/-- Modelled from the spec (section 4.4): a sector must be erased when
some page in it needs a 0-to-1 bit transition. -/
def sectorNeedsErase (c d : List Page) : Bool :=
  ! ((List.zip c d).all fun p => pageWritable p.1 p.2)

/-- Program commands for every page of sector `s` from the desired
image, in ascending page order starting at page index `i`. -/
def progAllOps (s : Nat) : Nat → List Page → List SpiOp
  | _, [] => []
  | i, dp :: dr => SpiOp.programPage s i dp :: progAllOps s (i + 1) dr

/-- Program commands for only the changed pages of sector `s`
(wear-reduction: identical pages are skipped), ascending page order. -/
def progChanged (s : Nat) : Nat → List Page → List Page → List SpiOp
  | _, [], _ => []
  | _, _ :: _, [] => []
  | i, cp :: cr, dp :: dr =>
    if cp = dp then progChanged s (i + 1) cr dr
    else SpiOp.programPage s i dp :: progChanged s (i + 1) cr dr

/-- Modelled from the spec (section 4.4): the plan for one sector.
With `force`, or when some page needs a 0-to-1 transition, the sector
is erased once and every one of its pages is reprogrammed from the
desired image; otherwise only the changed (erase-free writable) pages
are programmed and identical pages are skipped. -/
def planSector (force : Bool) (s : Nat) (c d : List Page) : List SpiOp :=
  if force || sectorNeedsErase c d then
    SpiOp.eraseSector s :: progAllOps s 0 d
  else progChanged s 0 c d

/-- Sector-by-sector plan, ascending sector order starting at `s`. -/
def planAux (force : Bool) : Nat → List (List Page × List Page) → List SpiOp
  | _, [] => []
  | s, (c, d) :: rest => planSector force s c d ++ planAux force (s + 1) rest

/-- Modelled from the spec (section 4.4): `plan current desired` is the
set of erase and program operations the ProgramPlanner emits, ascending
offset order, erases before the programs of their sector. -/
def plan (force : Bool) (cur des : List (List Page)) : List SpiOp :=
  planAux force 0 (List.zip cur des)

/-- Modelled from the spec (sections 2 and 4.3): the TransferEngine
issues a write-enable immediately before every erase and every program
command, because the hardware latch is single-shot. -/
def interleaveWE : List SpiOp → List SpiOp
  | [] => []
  | op :: rest => SpiOp.writeEnable :: op :: interleaveWE rest

/-- Modelled from the spec: `spiflash_program_buffer` (declared in
bioswrite.h, body not under src/).  Per section 4.4 it diffs current
against desired contents and executes the plan; per sections 2 and 4.3
each erase/program is preceded by its own write-enable.  The CLI calls
it with no force argument (src/bioswrite-main.c line 168) and never
stores the parsed `force` flag (lines 17, 213) into `sp`, so the
planner always runs in its default diff mode, `plan false`. -/
def spiflash_program_buffer (cur des : List (List Page)) : List SpiOp :=
  interleaveWE (plan false cur des)

/-- SPI command trace of the whole CLI write path: the unconditional
`spiflash_write_enable` of src/bioswrite-main.c line 159 followed by
the commands of `spiflash_program_buffer` (line 168).  The `force`
argument records the request flag parsed by main (line 213); the code
never passes it onward, which the body reflects by ignoring it. -/
def writeSpiOps (force : Bool) (cur des : List (List Page)) : List SpiOp :=
  SpiOp.writeEnable :: spiflash_program_buffer cur des

/-- Sector-local effect of one SPI command. -/
def applySecOp (sec : List Page) : SpiOp → List Page
  | SpiOp.writeEnable => sec
  | SpiOp.eraseSector _ => sec.map erasePage
  | SpiOp.programPage _ i data => sec.set i (progPage (sec.getD i []) data)

/-- Sector-local execution of a command list. -/
def execSec : List Page → List SpiOp → List Page
  | sec, [] => sec
  | sec, op :: ops => execSec (applySecOp sec op) ops

/-- Whole-image effect of one SPI command: write-enable touches no
data; erase and program rewrite the targeted sector. -/
def applyOp (st : List (List Page)) (op : SpiOp) : List (List Page) :=
  match op with
  | SpiOp.writeEnable => st
  | SpiOp.eraseSector s => st.set s (applySecOp (st.getD s []) op)
  | SpiOp.programPage s _ _ => st.set s (applySecOp (st.getD s []) op)

/-- Whole-image execution of a command list. -/
def execPlan : List (List Page) → List SpiOp → List (List Page)
  | st, [] => st
  | st, op :: ops => execPlan (applyOp st op) ops

/-- Shape agreement of one current/desired page pair: equal lengths and
desired holds byte values. -/
def pageOk (c d : Page) : Bool :=
  (c.length == d.length) && (d.all fun b => decide (b < 256))

/-- Shape agreement of one current/desired sector pair. -/
def sectorOk (c d : List Page) : Bool :=
  (c.length == d.length) && ((List.zip c d).all fun p => pageOk p.1 p.2)

/-- Shape agreement of a current/desired image pair: same number of
sectors, pairwise same number of pages, pairwise same page lengths, and
desired holds byte values. -/
def imageOk (cur des : List (List Page)) : Bool :=
  (cur.length == des.length) && ((List.zip cur des).all fun p => sectorOk p.1 p.2)

/-- The sector index an SPI command is allowed to touch. -/
def opTargets (s : Nat) : SpiOp → Prop
  | SpiOp.writeEnable => True
  | SpiOp.eraseSector t => t = s
  | SpiOp.programPage t _ _ => t = s

/-- Setting the element right after a prefix rewrites the head of the
suffix. -/
lemma set_append_len {α : Type} (pre : List α) (x v : α) (rest : List α) :
    (pre ++ x :: rest).set pre.length v = pre ++ v :: rest := by
  induction pre with
  | nil => rfl
  | cons p ps ih => simpa [List.set] using ih

/-- Reading the element right after a prefix yields the head of the
suffix. -/
lemma getD_append_len {α : Type} (pre : List α) (x : α) (rest : List α)
    (y : α) : (pre ++ x :: rest).getD pre.length y = x := by
  induction pre with
  | nil => rfl
  | cons p ps ih => simpa [List.getD] using ih

set_option maxRecDepth 4000 in
/-- Every byte below 256 survives an AND with the erased value 0xFF. -/
lemma land_255 : ∀ b, b < 256 → 255 &&& b = b := by decide

/-- Programming a freshly erased page yields exactly the payload. -/
lemma progPage_erased : ∀ (d c : Page), c.length = d.length →
    (∀ b ∈ d, b < 256) → progPage (erasePage c) d = d := by
  intro d
  induction d with
  | nil => intro c _ _; simp [progPage]
  | cons b dr ih =>
    intro c hl hb
    cases c with
    | nil => simp at hl
    | cons c0 cr =>
      have hb0 : 255 &&& b = b := land_255 b (hb b (by simp))
      have hr : progPage (erasePage cr) dr = dr :=
        ih cr (by simpa using hl) (fun x hx => hb x (by simp [hx]))
      simp [progPage, erasePage] at hr ⊢
      exact ⟨hb0, hr⟩

/-- Programming a writable page (no 0-to-1 transition needed) yields
exactly the payload. -/
lemma progPage_writable : ∀ (d c : Page), c.length = d.length →
    pageWritable c d = true → progPage c d = d := by
  intro d
  induction d with
  | nil => intro c _ _; simp [progPage]
  | cons b dr ih =>
    intro c hl hw
    cases c with
    | nil => simp at hl
    | cons c0 cr =>
      simp [pageWritable, List.zip_cons_cons, List.all_cons] at hw
      have hr : progPage cr dr = dr :=
        ih cr (by simpa using hl) (by simpa [pageWritable] using hw.2)
      simp [progPage] at hr ⊢
      exact ⟨hw.1, hr⟩

/-- A boolean check over the zip of two equal-length lists gives a
pointwise `Forall₂`. -/
lemma all_zip_forall₂ {α β : Type} (P : α → β → Bool) :
    ∀ (l₁ : List α) (l₂ : List β), l₁.length = l₂.length →
    ((List.zip l₁ l₂).all fun p => P p.1 p.2) = true →
    List.Forall₂ (fun a b => P a b = true) l₁ l₂ := by
  intro l₁
  induction l₁ with
  | nil =>
    intro l₂ hl _
    cases l₂ with
    | nil => exact List.Forall₂.nil
    | cons b lb => simp at hl
  | cons a la ih =>
    intro l₂ hl ha
    cases l₂ with
    | nil => simp at hl
    | cons b lb =>
      simp [List.zip_cons_cons, List.all_cons] at ha
      exact List.Forall₂.cons ha.1 (ih lb (by simpa using hl) (by simpa using ha.2))

/-- Two pointwise relations combine into their conjunction. -/
lemma forall₂_conj {α β : Type} {P Q : α → β → Prop} :
    ∀ {l₁ : List α} {l₂ : List β}, List.Forall₂ P l₁ l₂ →
    List.Forall₂ Q l₁ l₂ →
    List.Forall₂ (fun a b => P a b ∧ Q a b) l₁ l₂ := by
  intro l₁ l₂ h1
  induction h1 with
  | nil => intro _; exact List.Forall₂.nil
  | cons hp _ ih =>
    intro h2
    rcases List.forall₂_cons.mp h2 with ⟨hq, h2r⟩
    exact List.Forall₂.cons ⟨hp, hq⟩ (ih h2r)

/-- Unpacking `pageOk`. -/
lemma pageOk_spec {c d : Page} (h : pageOk c d = true) :
    c.length = d.length ∧ ∀ b ∈ d, b < 256 := by
  simpa [pageOk] using h

/-- Unpacking `sectorOk` into a pointwise page agreement. -/
lemma sectorOk_spec {c d : List Page} (h : sectorOk c d = true) :
    c.length = d.length ∧
    List.Forall₂ (fun cp dp => pageOk cp dp = true) c d := by
  simp [sectorOk] at h
  exact ⟨h.1, all_zip_forall₂ _ c d h.1 (by simpa using h.2)⟩

/-- Unpacking `imageOk` into a pointwise sector agreement. -/
lemma imageOk_spec {cur des : List (List Page)} (h : imageOk cur des = true) :
    cur.length = des.length ∧
    List.Forall₂ (fun c d => sectorOk c d = true) cur des := by
  simp [imageOk] at h
  exact ⟨h.1, all_zip_forall₂ _ cur des h.1 (by simpa using h.2)⟩

/-- An SPI command targeting the sector right after a prefix rewrites
only that sector, exactly as its sector-local effect. -/
lemma applyOp_target {pre : List (List Page)} {c : List Page}
    {rest : List (List Page)} {op : SpiOp}
    (h : opTargets pre.length op) :
    applyOp (pre ++ c :: rest) op = pre ++ applySecOp c op :: rest := by
  cases op with
  | writeEnable => rfl
  | eraseSector t =>
    have ht : t = pre.length := h
    subst ht
    simp only [applyOp]
    rw [getD_append_len, set_append_len]
  | programPage t i data =>
    have ht : t = pre.length := h
    subst ht
    simp only [applyOp]
    rw [getD_append_len, set_append_len]

/-- Executing a list of commands that all target the sector right after
a prefix rewrites only that sector, by its sector-local execution. -/
lemma execPlan_local : ∀ (ops : List SpiOp) (pre : List (List Page))
    (c : List Page) (rest : List (List Page)),
    (∀ op ∈ ops, opTargets pre.length op) →
    execPlan (pre ++ c :: rest) ops = pre ++ execSec c ops :: rest := by
  intro ops
  induction ops with
  | nil => intro pre c rest _; rfl
  | cons op more ih =>
    intro pre c rest hops
    rw [execPlan, execSec, applyOp_target (hops op (by simp))]
    exact ih pre (applySecOp c op) rest (fun o ho => hops o (by simp [ho]))

/-- Executing a concatenation executes the pieces in order. -/
lemma execPlan_append : ∀ (l₁ l₂ : List SpiOp) (st : List (List Page)),
    execPlan st (l₁ ++ l₂) = execPlan (execPlan st l₁) l₂ := by
  intro l₁
  induction l₁ with
  | nil => intro l₂ st; rfl
  | cons op more ih => intro l₂ st; rw [List.cons_append, execPlan, execPlan, ih]

/-- Every command of `progAllOps` targets its sector. -/
lemma progAllOps_targets (s : Nat) : ∀ (d : List Page) (i : Nat)
    (op : SpiOp), op ∈ progAllOps s i d → opTargets s op := by
  intro d
  induction d with
  | nil => intro i op h; simp [progAllOps] at h
  | cons dp dr ih =>
    intro i op h
    rw [progAllOps] at h
    rcases List.mem_cons.mp h with h1 | h1
    · subst h1; exact rfl
    · exact ih (i + 1) op h1

/-- Every command of `progChanged` targets its sector. -/
lemma progChanged_targets (s : Nat) : ∀ (c d : List Page) (i : Nat)
    (op : SpiOp), op ∈ progChanged s i c d → opTargets s op := by
  intro c
  induction c with
  | nil => intro d i op h; simp [progChanged] at h
  | cons cp cr ih =>
    intro d i op h
    cases d with
    | nil => simp [progChanged] at h
    | cons dp dr =>
      rw [progChanged] at h
      by_cases hEq : cp = dp
      · rw [if_pos hEq] at h
        exact ih dr (i + 1) op h
      · rw [if_neg hEq] at h
        rcases List.mem_cons.mp h with h1 | h1
        · subst h1; exact rfl
        · exact ih dr (i + 1) op h1

/-- Every command of a sector plan targets that sector. -/
lemma planSector_targets (force : Bool) (s : Nat) (c d : List Page) :
    ∀ op ∈ planSector force s c d, opTargets s op := by
  intro op h
  rw [planSector] at h
  by_cases hc : (force || sectorNeedsErase c d) = true
  · rw [if_pos hc] at h
    rcases List.mem_cons.mp h with h1 | h1
    · subst h1; exact rfl
    · exact progAllOps_targets s d 0 op h1
  · rw [if_neg hc] at h
    exact progChanged_targets s c d 0 op h

/-- Sector-local execution of the program-everything command list:
when each payload programs its page exactly, the pages after the
prefix become the desired pages. -/
lemma execSec_progAllOps (s : Nat) {e dl : List Page}
    (h : List.Forall₂ (fun ep dp => progPage ep dp = dp) e dl) :
    ∀ pre : List Page,
    execSec (pre ++ e) (progAllOps s pre.length dl) = pre ++ dl := by
  induction h with
  | nil => intro pre; simp [progAllOps, execSec]
  | @cons e0 dp er dr hpair hrest ih =>
    intro pre
    rw [progAllOps, execSec]
    have h1 : applySecOp (pre ++ e0 :: er) (SpiOp.programPage s pre.length dp)
        = pre ++ dp :: er := by
      simp only [applySecOp]
      rw [getD_append_len, set_append_len, hpair]
    rw [h1]
    have h2 := ih (pre ++ [dp])
    simpa [List.length_append] using h2

/-- Sector-local execution of the changed-pages command list: skipped
pages are already desired, programmed pages become desired. -/
lemma execSec_progChanged (s : Nat) {e dl : List Page}
    (h : List.Forall₂ (fun cp dp => progPage cp dp = dp) e dl) :
    ∀ pre : List Page,
    execSec (pre ++ e) (progChanged s pre.length e dl) = pre ++ dl := by
  induction h with
  | nil => intro pre; simp [progChanged, execSec]
  | @cons cp dp cr dr hpair hrest ih =>
    intro pre
    rw [progChanged]
    by_cases hEq : cp = dp
    · rw [if_pos hEq]
      subst hEq
      have h2 := ih (pre ++ [cp])
      simpa [List.length_append] using h2
    · rw [if_neg hEq, execSec]
      have h1 : applySecOp (pre ++ cp :: cr) (SpiOp.programPage s pre.length dp)
          = pre ++ dp :: cr := by
        simp only [applySecOp]
        rw [getD_append_len, set_append_len, hpair]
      rw [h1]
      have h2 := ih (pre ++ [dp])
      simpa [List.length_append] using h2

/-- Erasing then programming each page of a shape-agreeing sector pair
reproduces the desired pages exactly. -/
lemma forall₂_erased : ∀ {c d : List Page},
    List.Forall₂ (fun cp dp => pageOk cp dp = true) c d →
    List.Forall₂ (fun ep dp => progPage ep dp = dp) (c.map erasePage) d := by
  intro c d h
  induction h with
  | nil => exact List.Forall₂.nil
  | cons hp _ ih =>
    obtain ⟨hpl, hpb⟩ := pageOk_spec hp
    exact List.Forall₂.cons (progPage_erased _ _ hpl hpb) ih

/-- Sector-local correctness of the sector plan: executing the commands
`planSector` emits turns the current sector into the desired sector. -/
lemma execSec_planSector (force : Bool) (s : Nat) {c d : List Page}
    (h : sectorOk c d = true) :
    execSec c (planSector force s c d) = d := by
  obtain ⟨hlen, hpages⟩ := sectorOk_spec h
  rw [planSector]
  by_cases hcond : (force || sectorNeedsErase c d) = true
  · rw [if_pos hcond, execSec]
    have h1 : applySecOp c (SpiOp.eraseSector s) = c.map erasePage := rfl
    rw [h1]
    have h3 := execSec_progAllOps s (forall₂_erased hpages) []
    simpa using h3
  · rw [if_neg hcond]
    have hforce : force = false ∧ sectorNeedsErase c d = false := by
      constructor
      · cases force
        · rfl
        · exact absurd (by simp) hcond
      · cases hne : sectorNeedsErase c d
        · rfl
        · exact absurd (by simp [hne]) hcond
    have hallw : ((List.zip c d).all fun p => pageWritable p.1 p.2) = true := by
      have := hforce.2
      simpa [sectorNeedsErase] using this
    have hw : List.Forall₂ (fun cp dp => pageWritable cp dp = true) c d :=
      all_zip_forall₂ _ c d hlen hallw
    have hpe : List.Forall₂ (fun cp dp => progPage cp dp = dp) c d := by
      have hc := forall₂_conj hw hpages
      refine List.Forall₂.imp ?_ hc
      intro a b hab
      exact progPage_writable b a (pageOk_spec hab.2).1 hab.1
    have h3 := execSec_progChanged s hpe []
    simpa using h3

/-- Whole-image correctness of the plan, generalized over a prefix of
already-finished sectors. -/
lemma execPlan_planAux (force : Bool) {cl dl : List (List Page)}
    (h : List.Forall₂ (fun c d => sectorOk c d = true) cl dl) :
    ∀ pre : List (List Page),
    execPlan (pre ++ cl) (planAux force pre.length (List.zip cl dl)) =
      pre ++ dl := by
  induction h with
  | nil => intro pre; simp [planAux, execPlan]
  | @cons c d cr dr hsec hrest ih =>
    intro pre
    rw [List.zip_cons_cons, planAux, execPlan_append]
    have hloc := execPlan_local (planSector force pre.length c d) pre c cr
      (planSector_targets force pre.length c d)
    rw [hloc, execSec_planSector force pre.length hsec]
    have h2 := ih (pre ++ [d])
    simpa [List.length_append] using h2

/-- Executing the planner output turns the current image into the
desired image (shape agreement assumed). -/
lemma exec_plan_correct (force : Bool) (cur des : List (List Page))
    (h : imageOk cur des = true) :
    execPlan cur (plan force cur des) = des := by
  obtain ⟨_, hF⟩ := imageOk_spec h
  have h1 := execPlan_planAux force hF []
  simpa [plan] using h1

/-- Write-enable commands do not change flash data. -/
lemma execPlan_we (st : List (List Page)) (ops : List SpiOp) :
    execPlan st (SpiOp.writeEnable :: ops) = execPlan st ops := rfl

/-- Interleaving write-enables does not change the data effect. -/
lemma execPlan_interleaveWE : ∀ (ops : List SpiOp) (st : List (List Page)),
    execPlan st (interleaveWE ops) = execPlan st ops := by
  intro ops
  induction ops with
  | nil => intro st; rfl
  | cons op more ih =>
    intro st
    rw [interleaveWE, execPlan_we, execPlan, execPlan]
    exact ih (applyOp st op)

/-- The data effect of the full CLI write trace is the data effect of
the planner output. -/
lemma execPlan_writeSpiOps (force : Bool) (cur des : List (List Page)) :
    execPlan cur (writeSpiOps force cur des) =
      execPlan cur (plan false cur des) := by
  rw [writeSpiOps, spiflash_program_buffer, execPlan_we,
      execPlan_interleaveWE]

/-- Zipping a list with itself pairs each element with itself. -/
lemma zip_self_mem_eq {α : Type} : ∀ (l : List α) (p : α × α),
    p ∈ List.zip l l → p.1 = p.2 := by
  intro l
  induction l with
  | nil => intro p h; simp at h
  | cons a t ih =>
    intro p h
    rw [List.zip_cons_cons] at h
    rcases List.mem_cons.mp h with h1 | h1
    · rw [h1]
    · exact ih p h1

/-- A page never needs programming against itself. -/
lemma pageWritable_self : ∀ p : Page, pageWritable p p = true := by
  intro p
  unfold pageWritable
  rw [List.all_eq_true]
  intro x hx
  have h1 : x.1 = x.2 := zip_self_mem_eq p x hx
  show (x.1 &&& x.2 == x.2) = true
  rw [h1]
  simp

/-- A sector never needs an erase against itself. -/
lemma sectorNeedsErase_self (d : List Page) : sectorNeedsErase d d = false := by
  have hall : ((List.zip d d).all fun p => pageWritable p.1 p.2) = true := by
    rw [List.all_eq_true]
    intro x hx
    have h1 : x.1 = x.2 := zip_self_mem_eq d x hx
    show pageWritable x.1 x.2 = true
    rw [h1]
    exact pageWritable_self x.2
  unfold sectorNeedsErase
  rw [hall]
  rfl

/-- No changed-page programs are emitted against an identical sector. -/
lemma progChanged_self (s : Nat) : ∀ (d : List Page) (i : Nat),
    progChanged s i d d = [] := by
  intro d
  induction d with
  | nil => intro i; rfl
  | cons dp dr ih =>
    intro i
    rw [progChanged, if_pos rfl]
    exact ih (i + 1)

/-- The diff-mode plan against an identical image is empty: no erase
and no program command at all. -/
lemma plan_false_self (des : List (List Page)) : plan false des des = [] := by
  rw [plan]
  have h : ∀ (l : List (List Page)) (s : Nat),
      planAux false s (List.zip l l) = [] := by
    intro l
    induction l with
    | nil => intro s; rfl
    | cons d dr ih =>
      intro s
      rw [List.zip_cons_cons, planAux, planSector]
      rw [if_neg (by simp [sectorNeedsErase_self])]
      rw [progChanged_self, List.nil_append]
      exact ih (s + 1)
  exact h des 0

/-- C2 evaluation at the failing input: a force write of one page whose
current content already equals the desired content (byte 0xAA).  The
claim (and the usage text at src/bioswrite-main.c line 41) promises an
erase and a program for every page in range, but the parsed `force`
flag (line 213) is never read again and never reaches `write_to_spi`
or `spiflash_program_buffer`, so the diff mode skips the identical
page: the whole SPI trace is the single unconditional write-enable of
line 159 — no erase, no program.  The second conjunct records that the
request flag cannot influence the trace at all. -/
theorem force_flag_ignored :
    writeSpiOps true [[[170]]] [[[170]]] = [SpiOp.writeEnable] ∧
    ∀ (f₁ f₂ : Bool) (cur des : List (List Page)),
      writeSpiOps f₁ cur des = writeSpiOps f₂ cur des := by
  constructor
  · decide
  · intro _ _ _ _
    rfl

/-- C3 (sector-rewrite): for a diff-mode (force=false) write, if some
byte of sector `s` needs a 0-to-1 bit transition (so the sector must be
erased), then after executing the full CLI write trace every page of
that sector holds exactly the corresponding pages of the desired
image. -/
theorem sector_rewrite (cur des : List (List Page)) (s : Nat)
    (h : imageOk cur des = true)
    (hs : sectorNeedsErase (cur.getD s []) (des.getD s []) = true) :
    (execPlan cur (writeSpiOps false cur des)).getD s [] = des.getD s [] := by
  rw [execPlan_writeSpiOps, exec_plan_correct false cur des h]

/-- C3 witness: one sector of one page, current byte 0x00, desired byte
0xFF — a 0-to-1 transition forcing the erase. -/
theorem sector_rewrite_witness :
    imageOk [[[0]]] [[[255]]] = true ∧
    sectorNeedsErase (List.getD [[[0]]] 0 []) (List.getD [[[255]]] 0 []) = true ∧
    (execPlan [[[0]]] (writeSpiOps false [[[0]]] [[[255]]])).getD 0 [] =
      List.getD [[[255]]] 0 [] :=
  ⟨by decide, by decide,
    sector_rewrite [[[0]]] [[[255]]] 0 (by decide) (by decide)⟩

/-- C4 (idempotence / wear reduction): after a successful diff-mode
write of a desired image, immediately repeating the same write issues
zero erase and zero program commands — every page already equals its
desired content, so each page is skipped and the trace of the second
write is just the unconditional CLI write-enable of
src/bioswrite-main.c line 159. -/
theorem second_write_no_ops (cur des : List (List Page))
    (h : imageOk cur des = true) :
    writeSpiOps false (execPlan cur (writeSpiOps false cur des)) des =
      [SpiOp.writeEnable] := by
  rw [execPlan_writeSpiOps, exec_plan_correct false cur des h]
  rw [writeSpiOps, spiflash_program_buffer, plan_false_self]
  rfl

/-- C4 witness: writing one page of 0xFF over 0x00 twice. -/
theorem second_write_no_ops_witness :
    imageOk [[[0]]] [[[255]]] = true ∧
    writeSpiOps false (execPlan [[[0]]] (writeSpiOps false [[[0]]] [[[255]]]))
      [[[255]]] = [SpiOp.writeEnable] :=
  ⟨by decide, second_write_no_ops [[[0]]] [[[255]]] (by decide)⟩

/-- Classification of SPI commands that mutate flash: erase and
program. -/
def isEP : SpiOp → Bool
  | SpiOp.eraseSector _ => true
  | SpiOp.programPage _ _ _ => true
  | SpiOp.writeEnable => false

/-- Inside an interleaved trace, every erase or program command is
directly preceded by a write-enable. -/
lemma interleaveWE_we_before : ∀ (ops : List SpiOp) (i : Nat) (op : SpiOp),
    (interleaveWE ops)[i]? = some op → isEP op = true →
    ∃ j, i = j + 1 ∧ (interleaveWE ops)[j]? = some SpiOp.writeEnable := by
  intro ops
  induction ops with
  | nil => intro i op h _; simp [interleaveWE] at h
  | cons o rest ih =>
    intro i op h hep
    rw [interleaveWE] at h ⊢
    match i with
    | 0 =>
      simp at h
      rw [← h] at hep
      simp [isEP] at hep
    | 1 =>
      exact ⟨0, rfl, rfl⟩
    | (n + 2) =>
      have h1 : (interleaveWE rest)[n]? = some op := by
        simpa [List.getElem?_cons_succ] using h
      obtain ⟨j, hj, hwe⟩ := ih n op h1 hep
      refine ⟨j + 2, by omega, ?_⟩
      simpa using hwe

/-- C6 (temporal): in the SPI trace of any write, every individual
erase and every individual page-program command has a write-enable
directly before it (the trace also begins with the CLI's unconditional
write-enable of src/bioswrite-main.c line 159; the per-command
write-enables inside `spiflash_program_buffer` are modelled from the
spec, sections 2 and 4.3). -/
theorem we_before_each_erase_program (force : Bool)
    (cur des : List (List Page)) (i : Nat) (op : SpiOp)
    (h1 : (writeSpiOps force cur des)[i]? = some op)
    (h2 : isEP op = true) :
    ∃ j, i = j + 1 ∧
      (writeSpiOps force cur des)[j]? = some SpiOp.writeEnable := by
  rw [writeSpiOps] at h1 ⊢
  match i with
  | 0 =>
    simp at h1
    rw [← h1] at h2
    simp [isEP] at h2
  | (n + 1) =>
    have h3 : (spiflash_program_buffer cur des)[n]? = some op := by
      simpa [List.getElem?_cons_succ] using h1
    rw [spiflash_program_buffer] at h3
    obtain ⟨j, hj, hwe⟩ := interleaveWE_we_before _ n op h3 h2
    refine ⟨j + 1, by omega, ?_⟩
    rw [spiflash_program_buffer]
    simpa using hwe

/-- C6 witness: the trace of a one-page erase-and-program write is
`[WE, WE, erase, WE, program]`; the erase at index 2 is preceded by the
write-enable at index 1. -/
theorem we_before_each_erase_program_witness :
    (writeSpiOps false [[[0]]] [[[255]]])[2]? = some (SpiOp.eraseSector 0) ∧
    isEP (SpiOp.eraseSector 0) = true ∧
    ∃ j, 2 = j + 1 ∧
      (writeSpiOps false [[[0]]] [[[255]]])[j]? = some SpiOp.writeEnable :=
  ⟨by decide, by decide,
    we_before_each_erase_program false [[[0]]] [[[255]]] 2
      (SpiOp.eraseSector 0) (by decide) (by decide)⟩

/-- Modelled from the spec (sections 4.6 and 7): execution of a planned
command list against a per-command success oracle.  Each command is
issued in order; the first failing command is reported and every
remaining command is aborted.  Returns the commands actually issued. -/
def runOps (ok : SpiOp → Bool) : List SpiOp → List SpiOp
  | [] => []
  | op :: rest => if ok op then op :: runOps ok rest else [op]

/-- Every issued command before the last one succeeded: execution never
continues past a failing command. -/
lemma runOps_stops (ok : SpiOp → Bool) : ∀ (l : List SpiOp) (op : SpiOp),
    op ∈ (runOps ok l).dropLast → ok op = true := by
  intro l
  induction l with
  | nil => intro op h; simp [runOps] at h
  | cons a rest ih =>
    intro op h
    by_cases ha : ok a = true
    · rw [runOps, if_pos ha] at h
      cases hr : runOps ok rest with
      | nil => rw [hr] at h; simp at h
      | cons b bs =>
        rw [hr, List.dropLast_cons₂] at h
        rcases List.mem_cons.mp h with h1 | h1
        · rw [h1]; exact ha
        · exact ih op (by rw [hr]; exact h1)
    · rw [runOps, if_neg ha] at h
      simp at h

/-- The issued commands are an initial segment of the plan. -/
lemma runOps_initial (ok : SpiOp → Bool) : ∀ l : List SpiOp,
    ∃ n, runOps ok l = l.take n := by
  intro l
  induction l with
  | nil => exact ⟨0, rfl⟩
  | cons a rest ih =>
    by_cases ha : ok a = true
    · obtain ⟨n, hn⟩ := ih
      exact ⟨n + 1, by rw [runOps, if_pos ha, hn]; rfl⟩
    · exact ⟨1, by rw [runOps, if_neg ha]; rfl⟩

/-- C5 (failure aborts): if `spiflash_write_enable` fails, the CLI
write returns failure immediately with no program step attempted
(src/bioswrite-main.c lines 159-163: the trace ends at the
write-enable, `spiflash_program_buffer` is never reached).  More
generally — modelled from the spec, sections 4.6 and 7 — executing any
write's SPI command trace against a success oracle issues an initial
segment of the trace in which every command before the last one
succeeded: the first failure aborts all remaining commands. -/
theorem write_enable_failure_aborts (fs offset length read_len : Nat)
    (progOk : Bool) (h1 : length = 0 ∨ read_len = length)
    (h2 : add32 offset (writeEffLen length read_len) ≤ fs) :
    write_to_spi fs offset length read_len true false progOk =
      (false, [WStep.boundsCheck, WStep.writeEnableCmd]) ∧
    ∀ (ok : SpiOp → Bool) (force : Bool) (cur des : List (List Page)),
      (∀ op ∈ (runOps ok (writeSpiOps force cur des)).dropLast,
        ok op = true) ∧
      ∃ n, runOps ok (writeSpiOps force cur des) =
        (writeSpiOps force cur des).take n := by
  constructor
  · unfold write_to_spi
    have hmis : ¬ (length ≠ 0 ∧ read_len ≠ length) := by
      rcases h1 with h1 | h1 <;> simp [h1]
    rw [if_neg (by simp), if_neg hmis, if_neg (by omega), if_pos rfl]
  · intro ok force cur des
    exact ⟨fun op h => runOps_stops ok _ op h, runOps_initial ok _⟩

/-- C5 witness: default-length write of 8 file bytes with the
write-enable failing. -/
theorem write_enable_failure_aborts_witness :
    ((0 : Nat) = 0 ∨ (8 : Nat) = 0) ∧ add32 0 (writeEffLen 0 8) ≤ 16 ∧
    (write_to_spi 16 0 0 8 true false true =
       (false, [WStep.boundsCheck, WStep.writeEnableCmd]) ∧
     ∀ (ok : SpiOp → Bool) (force : Bool) (cur des : List (List Page)),
       (∀ op ∈ (runOps ok (writeSpiOps force cur des)).dropLast,
         ok op = true) ∧
       ∃ n, runOps ok (writeSpiOps force cur des) =
         (writeSpiOps force cur des).take n) :=
  ⟨Or.inl rfl, by decide,
    write_enable_failure_aborts 16 0 0 8 true (Or.inl rfl) (by decide)⟩

/-- Modelled from the spec (section 4.3): `spiflash_read` bulk-reads
`length` bytes starting at `offset`; the flash addresses it touches. -/
def readTouched (offset length : Nat) : List Nat := List.range' offset length

/-- Modelled from the spec (sections 4.3 and 6): `spiflash_read`
(declared in bioswrite.h, body not under src/) returns the requested
slice of the flash contents and leaves the flash contents unchanged
(reads need no write-enable and mutate nothing). -/
def spiflash_read (flash : List Nat) (offset length : Nat) :
    List Nat × List Nat :=
  ((flash.drop offset).take length, flash)

/-- Addresses generated by a contiguous range stay inside it. -/
lemma mem_readTouched : ∀ (length offset a : Nat),
    a ∈ readTouched offset length → offset ≤ a ∧ a < offset + length := by
  intro length
  induction length with
  | zero => intro offset a h; simp [readTouched, List.range'] at h
  | succ k ih =>
    intro offset a h
    have hstep : List.range' offset (k + 1) = offset :: List.range' (offset + 1) k := rfl
    rw [readTouched, hstep] at h
    rcases List.mem_cons.mp h with h1 | h1
    · omega
    · have := ih (offset + 1) a h1
      omega

/-- C7 (frame property): for every in-bounds request, the flash
addresses the read touches all lie in `[offset, offset + length)`, and
the flash contents after the read are unchanged — no address outside
the interval is read or modified. -/
theorem read_frame (flash : List Nat) (total_size offset length : Nat)
    (h : offset + length ≤ total_size) :
    (∀ a ∈ readTouched offset length,
      offset ≤ a ∧ a < offset + length) ∧
    (spiflash_read flash offset length).2 = flash := by
  exact ⟨fun a ha => mem_readTouched length offset a ha, rfl⟩

/-- C7 witness: reading 2 bytes at offset 1 of a 4-byte flash. -/
theorem read_frame_witness :
    1 + 2 ≤ 4 ∧
    ((∀ a ∈ readTouched 1 2, 1 ≤ a ∧ a < 1 + 2) ∧
     (spiflash_read [7, 8, 9, 10] 1 2).2 = [7, 8, 9, 10]) :=
  ⟨by norm_num, read_frame [7, 8, 9, 10] 4 1 2 (by norm_num)⟩
